import Mathlib

/-!
Verification of the `rulp` LP-text parser (`src/parser/impl_parser.rs`).

The parser is built from five Rust regexes plus a split/trim segmenter and a
bucketing aggregator.  This file gives a shallow embedding:

* Strings are `List Char`; `String.toList` is used to write concrete inputs.
* Rust `f64` values are modelled by `Dec` (an exact decimal: an integer
  numerator over a power of ten).  Every numeric value this parser creates is
  either a decimal literal captured by a regex, `0.0`, or such a literal
  multiplied by `1.0` or `-1.0`; all of these operations are exact in `f64`
  for the literals appearing in the claims, so the `Dec` model and `f64`
  agree on everything stated here.  `Dec.toRat` gives the rational value.
* Each Rust regex is embedded as an explicit matcher with the leftmost-first
  (Perl-style, as implemented by the Rust `regex` crate) semantics:
  a match is attempted at position 0, 1, ... of the haystack, and at a given
  position alternatives are tried in pattern order, greedy pieces longest
  first, lazy pieces shortest first.  Where a greedy or optional piece cannot
  interact with its continuation (disjoint character classes), the matcher is
  written deterministically; each such spot is justified in a comment.
* Rust panics (`unwrap`, `expect`, `panic!`) are modelled by `Except`
  errors, with a constructor per panic site.
-/

namespace Rulp

/-! ## Character classes

The chars recognised by `\s`, `\w`, `\d` of the Rust regex crate (the inputs
in the claims are ASCII, where these classes are as below). -/

/-- Whitespace as matched by the regex class `\s` and by Rust `str::trim`
(ASCII part: space, tab, line feed, carriage return, vertical tab, form feed). -/
def isSpace (c : Char) : Bool :=
  c == ' ' || c == '\t' || c == '\n' || c == '\r' || c == '\x0b' || c == '\x0c'

/-- Word characters, the regex class `\w` (ASCII part: alphanumeric or underscore). -/
def isWordChar (c : Char) : Bool :=
  c.isAlphanum || c == '_'

/-- Decimal digits, the regex class `\d`. -/
def isDigitChar (c : Char) : Bool :=
  c.isDigit

/-! ## Exact decimal numbers standing for `f64` -/

/-- Exact decimal number `num / 10 ^ exp`, modelling the `f64` values this
parser computes.  All coefficients and constants the parser stores are decimal
literals (possibly multiplied by a sign), which this type represents exactly. -/
structure Dec where
  num : Int
  exp : Nat
  deriving Repr, DecidableEq

/-- Multiplication of decimals; models `f64` multiplication (used only with a
sign factor `1.0` or `-1.0`, where `f64` multiplication is exact). -/
def Dec.mul (a b : Dec) : Dec :=
  ⟨a.num * b.num, a.exp + b.exp⟩

/-- Rational value of a `Dec`. -/
def Dec.toRat (d : Dec) : ℚ :=
  (d.num : ℚ) / (10 : ℚ) ^ d.exp

/-- Numeric value of a digit character. -/
def digitVal (c : Char) : Nat :=
  c.toNat - '0'.toNat

/-- Value of a digit string, most significant digit first. -/
def digitsToNat (l : List Char) : Nat :=
  l.foldl (fun a c => 10 * a + digitVal c) 0

/-- Value of a numeral matched by `\d+\.?\d*`, i.e. digits optionally followed
by a dot and more digits; models `str::parse::<f64>` on such a capture (which
always succeeds on this shape, hence no error case). -/
def parseNum (l : List Char) : Dec :=
  let ip := l.takeWhile isDigitChar
  match l.dropWhile isDigitChar with
  | '.' :: fr => ⟨(digitsToNat ip * 10 ^ fr.length + digitsToNat fr : Nat), fr.length⟩
  | _ => ⟨(digitsToNat ip : Nat), 0⟩

/-! ## Data model (`Variable`, `Constraint`, `Objective`, `Components`) -/

/-- Rust `Variable`: one weighted occurrence of a variable name. -/
structure Variable where
  name : List Char
  coefficient : Dec
  deriving Repr, DecidableEq

/-- Rust `builder::Relation`. -/
inductive Relation where
  | LessThanOrEqual
  | GreaterThanOrEqual
  | Equal
  deriving Repr, DecidableEq

/-- Rust `Constraint`. -/
structure Constraint where
  name : List Char
  «variables» : List Variable
  constant : Dec
  relation : Relation
  deriving Repr, DecidableEq

/-- Rust `Objective`. -/
structure Objective where
  name : List Char
  «variables» : List Variable
  maximize : Bool
  deriving Repr, DecidableEq

/-- Rust `Components`. -/
structure Components where
  «variables» : List Variable
  constraints : List Constraint
  objective : Objective
  deriving Repr, DecidableEq

/-- Rust `LineType` (result of `get_line_type`). -/
inductive LineType where
  | Variable
  | Constraint
  | Objective
  | Comment
  deriving Repr, DecidableEq

/-- Rust `Component` (result of `component_from_line`). -/
inductive Component where
  | Variable (v : Rulp.Variable)
  | Constraint (c : Rulp.Constraint)
  | Objective (o : Rulp.Objective)
  | Comment
  deriving Repr, DecidableEq

/-- Error kinds, one per panic site of the Rust code:
`MalformedStatement` for the `panic!` in `get_line_type`;
`MissingObjective` for the `expect` on the objective bucket in
`get_components`; `UnmatchedPattern` for every `captures(..).unwrap()` /
`expect` on a regex that found no match. -/
inductive ParseError where
  | MalformedStatement
  | MissingObjective
  | UnmatchedPattern
  deriving Repr, DecidableEq

instance {ε α : Type} [DecidableEq ε] [DecidableEq α] : DecidableEq (Except ε α) :=
  fun a b =>
    match a, b with
    | .error e, .error f =>
      if h : e = f then .isTrue (congrArg Except.error h)
      else .isFalse (fun hh => h (Except.error.inj hh))
    | .error _, .ok _ => .isFalse (fun hh => Except.noConfusion hh)
    | .ok _, .error _ => .isFalse (fun hh => Except.noConfusion hh)
    | .ok x, .ok y =>
      if h : x = y then .isTrue (congrArg Except.ok h)
      else .isFalse (fun hh => h (Except.ok.inj hh))

/-! ## Generic list / matcher utilities -/

/-- Left-biased choice, the preference order of a backtracking regex engine. -/
def orElseO {α : Type} : Option α → (Unit → Option α) → Option α
  | some a, _ => some a
  | none, f => f ()

/-- First success of `f` over a list of candidate states, in order; the
backtracking search over the ways a regex piece can match. -/
def firstSome {α β : Type} (f : α → Option β) : List α → Option β
  | [] => none
  | a :: t => orElseO (f a) (fun _ => firstSome f t)

/-- Unanchored regex search: try a match at every start position, leftmost
first (`Regex::captures` semantics). -/
def scanLeft {α : Type} (m : List Char → Option α) : List Char → Option α
  | [] => m []
  | c :: t => orElseO (m (c :: t)) (fun _ => scanLeft m t)

/-- Strip a literal piece of a pattern from the front of the haystack. -/
def stripLit : List Char → List Char → Option (List Char)
  | [], l => some l
  | _ :: _, [] => none
  | c :: p, d :: l => if c = d then stripLit p l else none

/-- Greedy `p+`: one or more `p`-characters, longest match.  Used only where
the continuation cannot consume a `p`-character, so no backtracking states
are needed. -/
def plusGreedy (p : Char → Bool) (l : List Char) : Option (List Char × List Char) :=
  match l.takeWhile p with
  | [] => none
  | tk => some (tk, l.dropWhile p)

/-- Rust `str::split(sep)`: the pieces between occurrences of `sep`,
empty pieces included (splitting the empty string gives one empty piece). -/
def splitChar (sep : Char) : List Char → List (List Char)
  | [] => [[]]
  | c :: t =>
    if c = sep then [] :: splitChar sep t
    else
      match splitChar sep t with
      | [] => [[c]]
      | h :: r => (c :: h) :: r

/-- Rust `str::trim`: drop whitespace from both ends. -/
def trimChars (l : List Char) : List Char :=
  ((l.dropWhile isSpace).reverse.dropWhile isSpace).reverse

/-- Rust `str::contains(needle)`: substring test. -/
def listContains (hay needle : List Char) : Bool :=
  match hay with
  | [] => needle.isEmpty
  | c :: t => needle.isPrefixOf (c :: t) || listContains t needle

/-- Suffixes obtained by consuming 0, 1, ... leading whitespace characters,
in that order: the states of a lazy `\s*?`.  Reversing the list gives the
states of a greedy `\s*`, longest consumed first. -/
def wsSuffixes : List Char → List (List Char)
  | [] => [[]]
  | c :: t => if isSpace c then (c :: t) :: wsSuffixes t else [c :: t]

/-! ## The five regexes of `Parser::new`, embedded as matchers -/

/-- Capture of `variable_declaration_regex` = `var\s+(?P<name>\w+)\s*`
at a fixed position: the literal `var`, then `\s+`, then the `name` capture
`\w+`.  The trailing `\s*` captures nothing.  Greedy `\s+` then `\w+` is
deterministic: whitespace and word characters are disjoint. -/
def matchVarDeclAt (l : List Char) : Option (List Char) :=
  match stripLit ['v', 'a', 'r'] l with
  | none => none
  | some r1 =>
    match plusGreedy isSpace r1 with
    | none => none
    | some (_, r2) =>
      match plusGreedy isWordChar r2 with
      | none => none
      | some (nm, _) => some nm

/-- Unanchored search with `variable_declaration_regex`. -/
def var_decl_captures (l : List Char) : Option (List Char) :=
  scanLeft matchVarDeclAt l

/-- Match of `(?P<coeff>\d+\.?\d*)\s*\*\s*` at a fixed position: the `coeff`
capture (digits, then an optional dot and more digits), then `\s*`, a literal
star, and `\s*`.  Returns the capture and the rest after the final `\s*`.
Deterministic reading of the backtracking search: `\d+` and `\d*` are greedy
and their continuations (`\.`, `\s`, `\*`) cannot consume a digit; if `\.?`
consumes a dot and the star then fails, declining the dot leaves the dot
itself in front of `\s*\*`, which also fails, so the optional dot is taken
exactly when present. -/
def matchCoeffStar (l : List Char) : Option (List Char × List Char) :=
  match plusGreedy isDigitChar l with
  | none => none
  | some (d1, r1) =>
    match r1 with
    | '.' :: r =>
      (match stripLit ['*'] ((r.dropWhile isDigitChar).dropWhile isSpace) with
       | none => none
       | some r3 => some (d1 ++ '.' :: r.takeWhile isDigitChar, r3.dropWhile isSpace))
    | r2 =>
      match stripLit ['*'] (r2.dropWhile isSpace) with
      | none => none
      | some r3 => some (d1, r3.dropWhile isSpace)

/-- Captures of `variable_regex` =
`((?:\s*(?P<sign>-)?\s*)(?P<coeff>\d+\.?\d*)\s*\*\s*)?(?P<name>\w+)`. -/
structure VarCaps where
  sign : Bool
  coeff : Option (List Char)
  name : List Char
  deriving Repr, DecidableEq

/-- Match of the optional group of `variable_regex` at a fixed position:
`\s*`, an optional sign, `\s*`, then coefficient-star.  The leading `\s*`
pieces are deterministic (their continuations `-`, `\d` are not whitespace).
The greedy `-?` tries the sign first, then falls back to no sign, exactly as
the engine does. -/
def matchGroup (l : List Char) : Option (Bool × List Char × List Char) :=
  match l.dropWhile isSpace with
  | '-' :: r =>
    orElseO
      (match matchCoeffStar (r.dropWhile isSpace) with
       | some (cs, rest) => some (true, cs, rest)
       | none => none)
      (fun _ =>
        match matchCoeffStar ('-' :: r) with
        | some (cs, rest) => some (false, cs, rest)
        | none => none)
  | l1 =>
    match matchCoeffStar l1 with
    | some (cs, rest) => some (false, cs, rest)
    | none => none

/-- Match of the whole `variable_regex` at a fixed position: the optional
group (tried first, since `(...)?` is greedy), then the mandatory `name`
capture `\w+`.  If the group matches but no name follows, the engine drops
the group and retries the name at the original position, which the
`orElseO` fallback reproduces. -/
def matchVarAt (l : List Char) : Option VarCaps :=
  orElseO
    (match matchGroup l with
     | some (sgn, cs, rest) =>
       (match plusGreedy isWordChar rest with
        | some (nm, _) => some ⟨sgn, some cs, nm⟩
        | none => none)
     | none => none)
    (fun _ =>
      match plusGreedy isWordChar l with
      | some (nm, _) => some ⟨false, none, nm⟩
      | none => none)

/-- Unanchored search with `variable_regex`. -/
def var_captures (l : List Char) : Option VarCaps :=
  scanLeft matchVarAt l

/-- Captures of `objective_regex` =
`(?P<type>minimize|maximize)\s+(?P<name>\w+)\s*:\s*(?P<equation>[^;]*)`. -/
structure ObjectiveCaps where
  ty : List Char
  name : List Char
  equation : List Char
  deriving Repr, DecidableEq

/-- Match of `objective_regex` at a fixed position.  The alternation tries
`minimize` first, in pattern order.  `\s+` / `\w+` / `\s*` / `:` / `\s*` are
deterministic (disjoint continuations); the final greedy `[^;]*` runs to the
end of the statement or the first semicolon. -/
def matchObjectiveAt (l : List Char) : Option ObjectiveCaps :=
  let kw :=
    orElseO
      ((stripLit "minimize".toList l).map fun r => ("minimize".toList, r))
      (fun _ => (stripLit "maximize".toList l).map fun r => ("maximize".toList, r))
  match kw with
  | none => none
  | some (ty, r1) =>
    match plusGreedy isSpace r1 with
    | none => none
    | some (_, r2) =>
      match plusGreedy isWordChar r2 with
      | none => none
      | some (nm, r3) =>
        match stripLit [':'] (r3.dropWhile isSpace) with
        | none => none
        | some r4 =>
          some ⟨ty, nm, (r4.dropWhile isSpace).takeWhile (fun c => !(c == ';'))⟩

/-- Unanchored search with `objective_regex`. -/
def objective_captures (l : List Char) : Option ObjectiveCaps :=
  scanLeft matchObjectiveAt l

/-- Captures of `constraint_regex` = `subject to (?P<name>\w*):\s*` +
`(?P<terms>[^=><]+?)\s*(?P<type>==|<=|>=)\s*?(?P<constant>\d+\.?\d*)\s*?`. -/
structure ConstraintCaps where
  name : List Char
  terms : List Char
  ty : List Char
  constant : List Char
  deriving Repr, DecidableEq

/-- The `==|<=|>=` alternation of `constraint_regex` at a fixed position
(the three alternatives start with distinct characters, so at most one
matches). -/
def typeSplit (l : List Char) : Option (List Char × List Char) :=
  match l with
  | '=' :: '=' :: r => some (['=', '='], r)
  | '<' :: '=' :: r => some (['<', '='], r)
  | '>' :: '=' :: r => some (['>', '='], r)
  | _ => none

/-- The `constant` capture `\d+\.?\d*` at a fixed position, greedy; the
pattern ends with a lazy `\s*?` which matches nothing, so the rest of the
haystack is irrelevant.  Determinism of the optional dot as in
`matchCoeffStar` (here the continuation is empty, so greedy simply takes
everything available). -/
def constSplit (l : List Char) : Option (List Char) :=
  match plusGreedy isDigitChar l with
  | none => none
  | some (d1, r1) =>
    match r1 with
    | '.' :: r => some (d1 ++ '.' :: r.takeWhile isDigitChar)
    | _ => some d1

/-- Nonempty prefixes of leading `[^=><]` characters with the corresponding
rest, shortest first: the states of the lazy `(?P<terms>[^=><]+?)`. -/
def termsSplits : List Char → List (List Char × List Char)
  | [] => []
  | c :: t =>
    if c == '=' || c == '<' || c == '>' then []
    else ([c], t) :: (termsSplits t).map (fun pr => (c :: pr.1, pr.2))

/-- Match of the tail `\s*(terms)\s*(type)\s*?(constant)\s*?` of
`constraint_regex` after the colon, with the exact backtracking order of the
engine: outer greedy `\s*` longest first, lazy `terms` shortest first, greedy
`\s*` longest first, the type alternation, lazy `\s*?` shortest first, then
the constant. -/
def matchConstraintTail (t : List Char) : Option (List Char × List Char × List Char) :=
  firstSome
    (fun t1 =>
      firstSome
        (fun pr =>
          firstSome
            (fun t3 =>
              match typeSplit t3 with
              | none => none
              | some tySp =>
                firstSome
                  (fun t5 =>
                    match constSplit t5 with
                    | none => none
                    | some c => some (pr.1, tySp.1, c))
                  (wsSuffixes tySp.2))
            ((wsSuffixes pr.2).reverse))
        (termsSplits t1))
    ((wsSuffixes t).reverse)

/-- Match of `constraint_regex` at a fixed position: the literal
`subject to ` (with its trailing space), the `name` capture `\w*` (greedy,
deterministic: a colon is not a word character), a literal colon, then the
tail. -/
def matchConstraintAt (l : List Char) : Option ConstraintCaps :=
  match stripLit "subject to ".toList l with
  | none => none
  | some r1 =>
    match stripLit [':'] (r1.dropWhile isWordChar) with
    | none => none
    | some r2 =>
      match matchConstraintTail r2 with
      | none => none
      | some (terms, ty, c) => some ⟨r1.takeWhile isWordChar, terms, ty, c⟩

/-- Unanchored search with `constraint_regex`. -/
def constraint_captures (l : List Char) : Option ConstraintCaps :=
  scanLeft matchConstraintAt l

/-! ## The parser functions (`impl Parser`) -/

/-- `Parser::get_line_type` (lines 169-181): priority-ordered substring
classification; the final `panic!` is the `MalformedStatement` error. -/
def get_line_type (line : List Char) : Except ParseError LineType :=
  if listContains line ['#'] then .ok .Comment
  else if listContains line "var".toList then .ok .Variable
  else if listContains line "minimize".toList || listContains line "maximize".toList then
    .ok .Objective
  else if listContains line "subject to".toList then .ok .Constraint
  else .error .MalformedStatement

/-- `Parser::parse_variable_declaration` (lines 183-189): the
`captures(..).unwrap()` panic is the `UnmatchedPattern` error. -/
def parse_variable_declaration (data : List Char) : Except ParseError Variable :=
  match var_decl_captures data with
  | none => .error .UnmatchedPattern
  | some nm => .ok { name := nm, coefficient := ⟨0, 0⟩ }

/-- `Parser::parse_variable` (lines 228-253): sign defaults to `1.0`, a
captured sign gives `-1.0`; a missing coefficient defaults to `1.0`;
the stored coefficient is `coefficient * sign`. -/
def parse_variable (data : List Char) : Except ParseError Variable :=
  match var_captures data with
  | none => .error .UnmatchedPattern
  | some caps =>
    .ok { name := caps.name
          coefficient :=
            Dec.mul
              (match caps.coeff with
               | none => ⟨1, 0⟩
               | some cs => parseNum cs)
              (if caps.sign then ⟨-1, 0⟩ else ⟨1, 0⟩) }

/-- Trim-then-parse each piece of a split term expression, left to right,
stopping at the first failure (the first panicking piece in Rust). -/
def parseTermPieces : List (List Char) → Except ParseError (List Variable)
  | [] => .ok []
  | s :: t =>
    match parse_variable (trimChars s) with
    | .error e => .error e
    | .ok v =>
      match parseTermPieces t with
      | .error e => .error e
      | .ok vs => .ok (v :: vs)

/-- `Parser::parse_objective_vars` (lines 224-226): split the expression on
plus signs, trim each piece, parse each piece as a variable. -/
def parse_objective_vars (data : List Char) : Except ParseError (List Variable) :=
  parseTermPieces (splitChar '+' data)

/-- `Parser::parse_constraint` (lines 191-212): relation resolution is by
substring test on the captured operator token; the constant always parses
(its capture shape is `\d+\.?\d*`). -/
def parse_constraint (data : List Char) : Except ParseError Constraint :=
  match constraint_captures data with
  | none => .error .UnmatchedPattern
  | some caps =>
    match parse_objective_vars caps.terms with
    | .error e => .error e
    | .ok vars =>
      .ok { name := caps.name
            «variables» := vars
            constant := parseNum caps.constant
            relation :=
              if listContains caps.ty ['<'] then .LessThanOrEqual
              else if listContains caps.ty ['>'] then .GreaterThanOrEqual
              else .Equal }

/-- `Parser::parse_objective` (lines 214-222): the `expect` on a failed
match is the `UnmatchedPattern` error; `maximize` is a substring test on the
captured direction keyword. -/
def parse_objective (data : List Char) : Except ParseError Objective :=
  match objective_captures data with
  | none => .error .UnmatchedPattern
  | some caps =>
    match parse_objective_vars caps.equation with
    | .error e => .error e
    | .ok vars =>
      .ok { name := caps.name
            «variables» := vars
            maximize := listContains caps.ty "maximize".toList }

/-- `Parser::component_from_line` (lines 154-167). -/
def component_from_line (line : List Char) : Except ParseError Component :=
  match get_line_type line with
  | .error e => .error e
  | .ok .Variable =>
    match parse_variable_declaration line with
    | .error e => .error e
    | .ok v => .ok (.Variable v)
  | .ok .Constraint =>
    match parse_constraint line with
    | .error e => .error e
    | .ok c => .ok (.Constraint c)
  | .ok .Objective =>
    match parse_objective line with
    | .error e => .error e
    | .ok o => .ok (.Objective o)
  | .ok .Comment => .ok .Comment

/-- The statement segmenter of `get_components` (lines 120-126): split the
document on semicolons, trim, drop empty statements. -/
def segment (text : List Char) : List (List Char) :=
  ((splitChar ';' text).map trimChars).filter (fun l => !l.isEmpty)

/-- Classify-and-parse each statement in order, stopping at the first
failure: the `map(component_from_line).collect()` of `get_components`,
whose iterator drives each statement through `component_from_line` (and its
possible panic) left to right. -/
def componentsOfLines : List (List Char) → Except ParseError (List Component)
  | [] => .ok []
  | s :: t =>
    match component_from_line s with
    | .error e => .error e
    | .ok c =>
      match componentsOfLines t with
      | .error e => .error e
      | .ok cs => .ok (c :: cs)

/-- The comment filter of `get_components`: keep components other than
`Component::Comment`. -/
def Component.isNotComment : Component → Bool
  | .Comment => false
  | _ => true

/-- One step of the bucketing loop of `get_components` (lines 132-145),
acting on (variables, constraints, objective) accumulators; a new objective
overwrites the accumulator (last one wins). -/
def aggStep : List Variable × List Constraint × Option Objective → Component →
    List Variable × List Constraint × Option Objective
  | (vars, cons, obj), .Variable v => (vars ++ [v], cons, obj)
  | (vars, cons, obj), .Constraint c => (vars, cons ++ [c], obj)
  | (vars, cons, _), .Objective o => (vars, cons, some o)
  | (vars, cons, obj), .Comment => (vars, cons, obj)

/-- `Parser::get_components` (lines 119-152): segment, classify-and-parse,
drop comments, bucket; the final `expect` on the objective bucket is the
`MissingObjective` error. -/
def get_components (text : List Char) : Except ParseError Components :=
  match componentsOfLines (segment text) with
  | .error e => .error e
  | .ok comps =>
    match (comps.filter Component.isNotComment).foldl aggStep ([], [], none) with
    | (_, _, none) => .error .MissingObjective
    | (vars, cons, some obj) => .ok ⟨vars, cons, obj⟩

/-- `ParserBase::parse_components_from_text`. -/
def parse_components_from_text (text : String) : Except ParseError Components :=
  get_components text.toList

/-! ## Basic facts about character classes and list scanning -/

/-- A character of one class differs from any character outside it. -/
theorem ne_of_class (p : Char → Bool) {c d : Char} (hc : p c = true) (hd : p d = false) :
    c ≠ d := by
  intro h
  rw [h, hd] at hc
  exact Bool.noConfusion hc

theorem word_not_space {c : Char} (h : isWordChar c = true) : isSpace c = false := by
  cases hs : isSpace c
  · rfl
  · exfalso
    have hs' : c = ' ' ∨ c = '\t' ∨ c = '\n' ∨ c = '\r' ∨ c = '\x0b' ∨ c = '\x0c' := by
      simpa only [isSpace, Bool.or_eq_true, beq_iff_eq, or_assoc] using hs
    rcases hs' with rfl | rfl | rfl | rfl | rfl | rfl <;> exact absurd h (by decide)

theorem digit_word {c : Char} (h : isDigitChar c = true) : isWordChar c = true := by
  simp only [isWordChar, Char.isAlphanum, Bool.or_eq_true]
  exact Or.inl (Or.inr h)

theorem digit_not_space {c : Char} (h : isDigitChar c = true) : isSpace c = false :=
  word_not_space (digit_word h)

/-- Head condition: the first character (if any) fails predicate `p`. -/
def headFalse (p : Char → Bool) : List Char → Prop
  | [] => True
  | c :: _ => p c = false

theorem headFalse_of_word {l : List Char} (h : l.all isWordChar = true) :
    headFalse isSpace l := by
  cases l with
  | nil => trivial
  | cons c t =>
    simp only [List.all_cons, Bool.and_eq_true] at h
    exact word_not_space h.1

theorem takeWhile_headFalse {p : Char → Bool} {l : List Char} (h : headFalse p l) :
    l.takeWhile p = [] := by
  cases l with
  | nil => rfl
  | cons c t =>
    have hc : p c = false := h
    simp [List.takeWhile_cons, hc]

theorem dropWhile_headFalse {p : Char → Bool} {l : List Char} (h : headFalse p l) :
    l.dropWhile p = l := by
  cases l with
  | nil => rfl
  | cons c t =>
    have hc : p c = false := h
    simp [List.dropWhile_cons, hc]

theorem takeWhile_append_all {p : Char → Bool} {l r : List Char}
    (hl : l.all p = true) (hr : headFalse p r) : (l ++ r).takeWhile p = l := by
  induction l with
  | nil => simpa using takeWhile_headFalse hr
  | cons c t ih =>
    simp only [List.all_cons, Bool.and_eq_true] at hl
    simp [List.takeWhile_cons, hl.1, ih hl.2]

theorem dropWhile_append_all {p : Char → Bool} {l r : List Char}
    (hl : l.all p = true) (hr : headFalse p r) : (l ++ r).dropWhile p = r := by
  induction l with
  | nil => simpa using dropWhile_headFalse hr
  | cons c t ih =>
    simp only [List.all_cons, Bool.and_eq_true] at hl
    simp [List.dropWhile_cons, hl.1, ih hl.2]

theorem takeWhile_all {p : Char → Bool} {l : List Char} (h : l.all p = true) :
    l.takeWhile p = l := by
  have := takeWhile_append_all (r := []) h trivial
  simpa using this

theorem dropWhile_all {p : Char → Bool} {l : List Char} (h : l.all p = true) :
    l.dropWhile p = [] := by
  have := dropWhile_append_all (r := []) h trivial
  simpa using this

theorem all_of_dropWhile (p q : Char → Bool) {l : List Char} (h : l.all p = true) :
    (l.dropWhile q).all p = true := by
  induction l with
  | nil => rfl
  | cons c t ih =>
    simp only [List.all_cons, Bool.and_eq_true] at h
    by_cases hq : q c = true
    · simp [List.dropWhile_cons, hq, ih h.2]
    · simp only [Bool.not_eq_true] at hq
      simp [List.dropWhile_cons, hq, List.all_cons, h.1, h.2]

theorem dropWhile_head_false {q : Char → Bool} {l : List Char} {c : Char} {t : List Char}
    (h : l.dropWhile q = c :: t) : q c = false := by
  induction l with
  | nil => exact absurd h (by simp)
  | cons d r ih =>
    by_cases hq : q d = true
    · rw [List.dropWhile_cons, if_pos hq] at h
      exact ih h
    · simp only [Bool.not_eq_true] at hq
      rw [List.dropWhile_cons, if_neg (by simp [hq])] at h
      cases h
      exact hq

theorem takeWhile_head_true {q : Char → Bool} {l : List Char} {c : Char} {t : List Char}
    (h : l.takeWhile q = c :: t) : q c = true := by
  induction l with
  | nil => exact absurd h (by simp)
  | cons d r ih =>
    by_cases hq : q d = true
    · rw [List.takeWhile_cons, if_pos hq] at h
      cases h
      exact hq
    · simp only [Bool.not_eq_true] at hq
      rw [List.takeWhile_cons, if_neg (by simp [hq])] at h
      exact absurd h (by simp)

/-! ## Facts about the matcher utilities -/

@[simp] theorem orElseO_some {α : Type} (a : α) (f : Unit → Option α) :
    orElseO (some a) f = some a := rfl

@[simp] theorem orElseO_none {α : Type} (f : Unit → Option α) :
    orElseO none f = f () := rfl

theorem firstSome_some {α β : Type} {f : α → Option β} {l : List α} {b : β}
    (h : firstSome f l = some b) : ∃ a, f a = some b := by
  induction l with
  | nil => exact absurd h (by simp [firstSome])
  | cons a t ih =>
    rw [firstSome] at h
    cases ha : f a with
    | some b0 =>
      rw [ha, orElseO_some] at h
      exact ⟨a, ha ▸ h⟩
    | none =>
      rw [ha, orElseO_none] at h
      exact ih h

theorem scanLeft_some {α : Type} {m : List Char → Option α} {l : List Char} {a : α}
    (h : scanLeft m l = some a) : ∃ s, m s = some a := by
  induction l with
  | nil => exact ⟨[], h⟩
  | cons c t ih =>
    rw [scanLeft] at h
    cases hm : m (c :: t) with
    | some a0 =>
      rw [hm, orElseO_some] at h
      exact ⟨c :: t, hm ▸ h⟩
    | none =>
      rw [hm, orElseO_none] at h
      exact ih h

theorem stripLit_append (p l : List Char) : stripLit p (p ++ l) = some l := by
  induction p with
  | nil => rfl
  | cons c t ih => simp [stripLit, ih]

theorem plusGreedy_append {p : Char → Bool} {tk r : List Char}
    (h1 : tk ≠ []) (h2 : tk.all p = true) (h3 : headFalse p r) :
    plusGreedy p (tk ++ r) = some (tk, r) := by
  rw [plusGreedy, takeWhile_append_all h2 h3, dropWhile_append_all h2 h3]
  cases tk with
  | nil => exact absurd rfl h1
  | cons c t => rfl

theorem plusGreedy_all {p : Char → Bool} {l : List Char}
    (h1 : l ≠ []) (h2 : l.all p = true) : plusGreedy p l = some (l, []) := by
  have := plusGreedy_append (r := []) h1 h2 trivial
  simpa using this

theorem plusGreedy_none {p : Char → Bool} {l : List Char} (h : headFalse p l) :
    plusGreedy p l = none := by
  rw [plusGreedy, takeWhile_headFalse h]

theorem plusGreedy_shape {p : Char → Bool} {l tk r : List Char}
    (h : plusGreedy p l = some (tk, r)) :
    tk = l.takeWhile p ∧ r = l.dropWhile p ∧ tk ≠ [] := by
  rw [plusGreedy] at h
  cases htk : l.takeWhile p with
  | nil => rw [htk] at h; exact absurd h (by simp)
  | cons c t =>
    rw [htk] at h
    cases h
    exact ⟨rfl, rfl, by simp⟩

/-! ## Facts about the segmenter pieces (`splitChar`, `trimChars`) -/

theorem splitChar_no_sep {sep : Char} {l : List Char} (h : ∀ c ∈ l, c ≠ sep) :
    splitChar sep l = [l] := by
  induction l with
  | nil => rfl
  | cons c t ih =>
    rw [splitChar, if_neg (h c (by simp)), ih (fun d hd => h d (by simp [hd]))]

theorem splitChar_append_sep {sep : Char} {a : List Char} (b : List Char)
    (ha : ∀ c ∈ a, c ≠ sep) :
    splitChar sep (a ++ sep :: b) = a :: splitChar sep b := by
  induction a with
  | nil => simp [splitChar]
  | cons c t ih =>
    rw [List.cons_append, splitChar, if_neg (ha c (by simp)),
      ih (fun d hd => ha d (by simp [hd]))]

theorem trim_prepend_spaces {pad : List Char} (l : List Char) (h : pad.all isSpace = true) :
    trimChars (pad ++ l) = trimChars l := by
  rw [trimChars, trimChars, List.dropWhile_append_of_pos (List.all_eq_true.mp h)]

theorem trim_cons_space (l : List Char) : trimChars (' ' :: l) = trimChars l := by
  have : trimChars ([' '] ++ l) = trimChars l := trim_prepend_spaces l (by decide)
  simpa using this

theorem trim_append_space (l : List Char) : trimChars (l ++ [' ']) = trimChars l := by
  rw [trimChars, trimChars, List.dropWhile_append]
  cases hy : l.dropWhile isSpace with
  | nil => decide
  | cons c t =>
    rw [if_neg (by simp)]
    have hrev : ((c :: t) ++ [' ']).reverse = ' ' :: (c :: t).reverse := by
      simp
    rw [hrev, List.dropWhile_cons, if_pos (by decide)]

theorem trim_eq_self {l : List Char} (h1 : headFalse isSpace l)
    (h2 : headFalse isSpace l.reverse) : trimChars l = l := by
  rw [trimChars, dropWhile_headFalse h1, dropWhile_headFalse h2, List.reverse_reverse]

theorem all_mem {p : Char → Bool} {l : List Char} (h : l.all p = true) {c : Char}
    (hc : c ∈ l) : p c = true :=
  List.all_eq_true.mp h c hc

/-! ## Behaviour of the term-parser matchers on well-formed inputs -/

theorem scanLeft_of_match {α : Type} {m : List Char → Option α} {l : List Char} {a : α}
    (h : m l = some a) : scanLeft m l = some a := by
  cases l with
  | nil => exact h
  | cons c t => rw [scanLeft, h, orElseO_some]

theorem scanLeft_cons_of_none {α : Type} {m : List Char → Option α} {c : Char}
    {t : List Char} (h : m (c :: t) = none) : scanLeft m (c :: t) = scanLeft m t := by
  rw [scanLeft, h, orElseO_none]

/-- On an all-word-character haystack the coefficient-star piece cannot match:
after the leading digits (if any) the next character is a word character,
never a dot or a star. -/
theorem matchCoeffStar_none_of_word {nm : List Char} (h : nm.all isWordChar = true) :
    matchCoeffStar nm = none := by
  cases hpg : plusGreedy isDigitChar nm with
  | none => simp only [matchCoeffStar, hpg]
  | some pr =>
    obtain ⟨d1, r1⟩ := pr
    obtain ⟨-, hdr, -⟩ := plusGreedy_shape hpg
    have hall : r1.all isWordChar = true := by
      rw [hdr]; exact all_of_dropWhile _ _ h
    cases r1 with
    | nil => simp [matchCoeffStar, hpg, stripLit]
    | cons h1 t1 =>
      have hw : isWordChar h1 = true := by
        simp only [List.all_cons, Bool.and_eq_true] at hall
        exact hall.1
      simp only [matchCoeffStar, hpg]
      split
      · rename_i r heq
        obtain ⟨he, -⟩ := List.cons.inj heq
        subst he
        exact absurd hw (by decide)
      · rw [dropWhile_headFalse (l := h1 :: t1) (word_not_space hw), stripLit,
          if_neg (ne_of_class isWordChar hw (by decide)).symm]

/-- The coefficient-star piece on `digits ++ * ++ rest`. -/
theorem matchCoeffStar_int {d1 rest : List Char} (h1 : d1 ≠ [])
    (h2 : d1.all isDigitChar = true) (hr : headFalse isSpace rest) :
    matchCoeffStar (d1 ++ '*' :: rest) = some (d1, rest) := by
  have hpg : plusGreedy isDigitChar (d1 ++ '*' :: rest) = some (d1, '*' :: rest) :=
    plusGreedy_append h1 h2 rfl
  simp only [matchCoeffStar, hpg]
  split
  · rename_i r heq
    exact absurd (List.cons.inj heq).1 (by decide)
  · rw [dropWhile_headFalse (p := isSpace) (l := '*' :: rest) rfl, stripLit, if_pos rfl,
      stripLit]
    simp only [dropWhile_headFalse hr]

/-- The coefficient-star piece on `digits ++ . ++ digits ++ * ++ rest`. -/
theorem matchCoeffStar_frac {d1 d2 rest : List Char} (h1 : d1 ≠ [])
    (h2 : d1.all isDigitChar = true) (h3 : d2.all isDigitChar = true)
    (hr : headFalse isSpace rest) :
    matchCoeffStar (d1 ++ '.' :: (d2 ++ '*' :: rest)) = some (d1 ++ '.' :: d2, rest) := by
  have hpg : plusGreedy isDigitChar (d1 ++ '.' :: (d2 ++ '*' :: rest)) =
      some (d1, '.' :: (d2 ++ '*' :: rest)) :=
    plusGreedy_append h1 h2 rfl
  simp only [matchCoeffStar, hpg]
  have htw : List.takeWhile isDigitChar (d2 ++ '*' :: rest) = d2 :=
    takeWhile_append_all h3 rfl
  have hdw : List.dropWhile isDigitChar (d2 ++ '*' :: rest) = '*' :: rest :=
    dropWhile_append_all h3 rfl
  rw [htw, hdw, dropWhile_headFalse (p := isSpace) (l := '*' :: rest) rfl, stripLit,
    if_pos rfl, stripLit]
  simp only [dropWhile_headFalse hr]

/-- The optional group of `variable_regex` fails on an all-word haystack. -/
theorem matchGroup_none_of_word {nm : List Char} (h1 : nm ≠ [])
    (h2 : nm.all isWordChar = true) : matchGroup nm = none := by
  cases nm with
  | nil => exact absurd rfl h1
  | cons c t =>
    have hw : isWordChar c = true := by
      simp only [List.all_cons, Bool.and_eq_true] at h2
      exact h2.1
    rw [matchGroup, dropWhile_headFalse (l := c :: t) (word_not_space hw)]
    split
    · rename_i r heq
      obtain ⟨he, -⟩ := List.cons.inj heq
      subst he
      exact absurd hw (by decide)
    · rename_i hconsne
      rw [matchCoeffStar_none_of_word h2]

/-- The optional group of `variable_regex` fails on a sign followed directly
by an all-word haystack: the sign may only be followed by a coefficient and a
star, never directly by the name. -/
theorem matchGroup_dash_word {nm : List Char} (h2 : nm.all isWordChar = true) :
    matchGroup ('-' :: nm) = none := by
  rw [matchGroup, dropWhile_headFalse (p := isSpace) (l := '-' :: nm) rfl]
  simp only [dropWhile_headFalse (headFalse_of_word h2), matchCoeffStar_none_of_word h2,
    orElseO_none]
  have hcs : matchCoeffStar ('-' :: nm) = none := by
    have hd : plusGreedy isDigitChar ('-' :: nm) = none := plusGreedy_none rfl
    simp only [matchCoeffStar, hd]
  simp only [hcs]

/-- `variable_regex` on a bare name: no sign, no coefficient. -/
theorem matchVarAt_word {nm : List Char} (h1 : nm ≠ []) (h2 : nm.all isWordChar = true) :
    matchVarAt nm = some ⟨false, none, nm⟩ := by
  simp only [matchVarAt, matchGroup_none_of_word h1 h2, orElseO_none,
    plusGreedy_all h1 h2]

/-- `variable_regex` finds no match starting at a sign followed directly by a
word character. -/
theorem matchVarAt_dash_word {nm : List Char} (h2 : nm.all isWordChar = true) :
    matchVarAt ('-' :: nm) = none := by
  have hpw : plusGreedy isWordChar ('-' :: nm) = none := plusGreedy_none rfl
  simp only [matchVarAt, matchGroup_dash_word h2, orElseO_none, hpw]

/-! ## Written terms of the surface grammar (spec side, for C2 and C3)

A term of the surface grammar is `[sign][coefficient*]name` (spec section
4.3); `TermSpec` describes one such written term and `renderTerm` prints it. -/

/-- One written term: an optional leading sign, an optional coefficient
(integer digits with an optional fractional part), and the variable name. -/
structure TermSpec where
  sgn : Bool
  coeff : Option (List Char × Option (List Char))
  name : List Char

/-- The characters of a written numeral `digits[.digits]`. -/
def numLitChars : List Char × Option (List Char) → List Char
  | (d1, none) => d1
  | (d1, some d2) => d1 ++ '.' :: d2

/-- Print a written term. -/
def renderTerm (t : TermSpec) : List Char :=
  (if t.sgn then ['-'] else []) ++
    (match t.coeff with
     | none => t.name
     | some cl => numLitChars cl ++ '*' :: t.name)

/-- Well-formedness of a written numeral: nonempty integer digits, digit-only
fractional part. -/
def validNumLitB : List Char × Option (List Char) → Bool
  | (d1, none) => !d1.isEmpty && d1.all isDigitChar
  | (d1, some d2) => !d1.isEmpty && d1.all isDigitChar && d2.all isDigitChar

/-- Well-formedness of a written term: nonempty all-word name, well-formed
coefficient when present. -/
def validTermB (t : TermSpec) : Bool :=
  !t.name.isEmpty && t.name.all isWordChar &&
    (match t.coeff with
     | none => true
     | some cl => validNumLitB cl)

/-- The coefficient the code stores for a written term.  This is the
magnitude-times-sign rule of the spec with one amendment forced by the code:
the sign factor applies only when an explicit coefficient is written (the
`sign` capture of `variable_regex` lives inside the optional coefficient
group), so a sign marker on a bare name contributes nothing. -/
def termValue (t : TermSpec) : Dec :=
  Dec.mul
    (match t.coeff with
     | none => ⟨1, 0⟩
     | some cl => parseNum (numLitChars cl))
    (if t.sgn && t.coeff.isSome then ⟨-1, 0⟩ else ⟨1, 0⟩)

theorem validTermB_name {t : TermSpec} (h : validTermB t = true) :
    t.name ≠ [] ∧ t.name.all isWordChar = true := by
  rw [validTermB, Bool.and_eq_true, Bool.and_eq_true] at h
  refine ⟨fun hn => ?_, h.1.2⟩
  rw [hn] at h
  exact absurd h.1.1 (by decide)

theorem validTermB_coeff {t : TermSpec} {d1 : List Char} {frac : Option (List Char)}
    (h : validTermB t = true) (hc : t.coeff = some (d1, frac)) :
    d1 ≠ [] ∧ d1.all isDigitChar = true ∧
      ∀ d2, frac = some d2 → d2.all isDigitChar = true := by
  rw [validTermB, hc, Bool.and_eq_true] at h
  have h2 := h.2
  cases frac with
  | none =>
    simp only [validNumLitB, Bool.and_eq_true] at h2
    refine ⟨fun hn => ?_, h2.2, fun d2 hd2 => Option.noConfusion hd2⟩
    rw [hn] at h2
    exact absurd h2.1 (by decide)
  | some d2 =>
    simp only [validNumLitB, Bool.and_eq_true] at h2
    refine ⟨fun hn => ?_, h2.1.2, fun d2' hd2 => ?_⟩
    · rw [hn] at h2
      exact absurd h2.1.1 (by decide)
    · cases hd2
      exact h2.2

/-- The optional group of `variable_regex` on a rendered signed coefficient. -/
theorem matchGroup_render {sgn : Bool} {e : Char} {t cap rest : List Char}
    (he : isDigitChar e = true)
    (hcs : matchCoeffStar (e :: t) = some (cap, rest)) :
    matchGroup ((if sgn then ['-'] else []) ++ e :: t) = some (sgn, cap, rest) := by
  cases sgn with
  | false =>
    rw [if_neg Bool.false_ne_true, List.nil_append, matchGroup,
      dropWhile_headFalse (p := isSpace) (l := e :: t) (digit_not_space he)]
    split
    · rename_i r heq
      obtain ⟨h1, -⟩ := List.cons.inj heq
      subst h1
      exact absurd he (by decide)
    · simp only [hcs]
  | true =>
    rw [if_pos rfl, List.singleton_append, matchGroup,
      dropWhile_headFalse (p := isSpace) (l := '-' :: e :: t) rfl]
    split
    · rename_i r heq
      obtain ⟨-, hr⟩ := List.cons.inj heq
      subst hr
      simp only [dropWhile_headFalse (p := isSpace) (l := e :: t) (digit_not_space he), hcs,
        orElseO_some]
    · rename_i hne
      exact absurd rfl (hne (e :: t))

/-- `variable_regex` at a position where the optional group matches and the
name follows. -/
theorem matchVarAt_render {l cap nm : List Char} {sgn : Bool}
    (hgrp : matchGroup l = some (sgn, cap, nm)) (hn1 : nm ≠ [])
    (hn2 : nm.all isWordChar = true) :
    matchVarAt l = some ⟨sgn, some cap, nm⟩ := by
  simp only [matchVarAt, hgrp, plusGreedy_all hn1 hn2, orElseO_some]

/-- `Parser::parse_variable` on any well-formed written term: the name is
kept, a missing coefficient defaults to `1.0`, a written coefficient is its
decimal magnitude, and the sign factor `-1.0` applies exactly when both a
sign and an explicit coefficient are written (the amended sign rule). -/
theorem parse_variable_render {t : TermSpec} (h : validTermB t = true) :
    parse_variable (renderTerm t) = .ok ⟨t.name, termValue t⟩ := by
  obtain ⟨sgn, coeff, name⟩ := t
  obtain ⟨hn1, hn2⟩ := validTermB_name h
  cases coeff with
  | none =>
    cases sgn with
    | false =>
      have hr : renderTerm ⟨false, none, name⟩ = name := by simp [renderTerm]
      have hv : var_captures name = some ⟨false, none, name⟩ :=
        scanLeft_of_match (matchVarAt_word hn1 hn2)
      rw [hr]
      simp only [parse_variable, var_captures] at hv ⊢
      rw [hv]
      rfl
    | true =>
      have hr : renderTerm ⟨true, none, name⟩ = '-' :: name := by simp [renderTerm]
      have hv : var_captures ('-' :: name) = some ⟨false, none, name⟩ := by
        rw [var_captures, scanLeft_cons_of_none (matchVarAt_dash_word hn2)]
        exact scanLeft_of_match (matchVarAt_word hn1 hn2)
      rw [hr]
      simp only [parse_variable, var_captures] at hv ⊢
      rw [hv]
      rfl
  | some cl =>
    obtain ⟨d1, frac⟩ := cl
    obtain ⟨hd1, hd1all, hfrac⟩ := validTermB_coeff h rfl
    obtain ⟨e, d1t, rfl⟩ : ∃ e d1t, d1 = e :: d1t := by
      cases d1 with
      | nil => exact absurd rfl hd1
      | cons e d1t => exact ⟨e, d1t, rfl⟩
    have he : isDigitChar e = true := by
      simp only [List.all_cons, Bool.and_eq_true] at hd1all
      exact hd1all.1
    have hcs : matchCoeffStar (numLitChars (e :: d1t, frac) ++ '*' :: name) =
        some (numLitChars (e :: d1t, frac), name) := by
      cases frac with
      | none => exact matchCoeffStar_int hd1 hd1all (headFalse_of_word hn2)
      | some d2 =>
        have h2 := hfrac d2 rfl
        have hf := matchCoeffStar_frac hd1 hd1all h2 (headFalse_of_word hn2)
        simpa [numLitChars, List.append_assoc] using hf
    obtain ⟨b, hb⟩ : ∃ b, numLitChars (e :: d1t, frac) ++ '*' :: name = e :: b := by
      cases frac <;> exact ⟨_, rfl⟩
    rw [hb] at hcs
    have hva : matchVarAt ((if sgn then ['-'] else []) ++ e :: b) =
        some ⟨sgn, some (numLitChars (e :: d1t, frac)), name⟩ :=
      matchVarAt_render (matchGroup_render he hcs) hn1 hn2
    have hr : renderTerm ⟨sgn, some (e :: d1t, frac), name⟩ =
        (if sgn then ['-'] else []) ++ e :: b := by
      simp only [renderTerm]
      rw [hb]
    have hv : scanLeft matchVarAt (renderTerm ⟨sgn, some (e :: d1t, frac), name⟩) =
        some ⟨sgn, some (numLitChars (e :: d1t, frac)), name⟩ := by
      rw [hr]
      exact scanLeft_of_match hva
    simp only [parse_variable, var_captures]
    rw [hv]
    cases sgn <;> rfl

/-- Print a sum of terms joined by ` + `. -/
def renderExpr : List TermSpec → List Char
  | [] => []
  | t :: ts =>
    match ts with
    | [] => renderTerm t
    | _ :: _ => renderTerm t ++ ' ' :: '+' :: ' ' :: renderExpr ts

/-- A rendered term never contains a plus sign (its characters are the sign
marker, digits, a dot, a star and word characters). -/
theorem renderTerm_no_plus {t : TermSpec} (h : validTermB t = true) :
    ∀ c ∈ renderTerm t, c ≠ '+' := by
  obtain ⟨sgn, coeff, name⟩ := t
  obtain ⟨-, hn2⟩ := validTermB_name h
  intro c hc
  simp only [renderTerm] at hc
  rcases List.mem_append.mp hc with hc | hc
  · cases sgn with
    | true =>
      rw [if_pos rfl] at hc
      have := List.mem_singleton.mp hc
      subst this
      decide
    | false =>
      rw [if_neg Bool.false_ne_true] at hc
      exact absurd hc (List.not_mem_nil c)
  · cases coeff with
    | none => exact ne_of_class isWordChar (all_mem hn2 hc) (by decide)
    | some cl =>
      obtain ⟨d1, frac⟩ := cl
      obtain ⟨-, hd1all, hfrac⟩ := validTermB_coeff h rfl
      rcases List.mem_append.mp hc with hc | hc
      · cases frac with
        | none => exact ne_of_class isDigitChar (all_mem hd1all hc) (by decide)
        | some d2 =>
          simp only [numLitChars] at hc
          rcases List.mem_append.mp hc with hc | hc
          · exact ne_of_class isDigitChar (all_mem hd1all hc) (by decide)
          · rcases List.mem_cons.mp hc with rfl | hc
            · decide
            · exact ne_of_class isDigitChar (all_mem (hfrac d2 rfl) hc) (by decide)
      · rcases List.mem_cons.mp hc with rfl | hc
        · decide
        · exact ne_of_class isWordChar (all_mem hn2 hc) (by decide)

/-- A rendered term starts with the sign marker, a digit or a word character,
never with whitespace. -/
theorem renderTerm_headFalse {t : TermSpec} (h : validTermB t = true) :
    headFalse isSpace (renderTerm t) := by
  obtain ⟨sgn, coeff, name⟩ := t
  obtain ⟨hn1, hn2⟩ := validTermB_name h
  cases sgn with
  | true => exact (rfl : isSpace '-' = false)
  | false =>
    cases coeff with
    | none =>
      simp only [renderTerm, if_neg Bool.false_ne_true, List.nil_append]
      exact headFalse_of_word hn2
    | some cl =>
      obtain ⟨d1, frac⟩ := cl
      obtain ⟨hd1, hd1all, -⟩ := validTermB_coeff h rfl
      obtain ⟨e, d1t, rfl⟩ : ∃ e d1t, d1 = e :: d1t := by
        cases d1 with
        | nil => exact absurd rfl hd1
        | cons e d1t => exact ⟨e, d1t, rfl⟩
      have he : isDigitChar e = true := by
        simp only [List.all_cons, Bool.and_eq_true] at hd1all
        exact hd1all.1
      simp only [renderTerm, if_neg Bool.false_ne_true, List.nil_append]
      cases frac with
      | none => exact digit_not_space he
      | some d2 => exact digit_not_space he

/-- A rendered term is the (possibly empty) sign and coefficient prefix
followed by the name. -/
theorem renderTerm_eq_append_name (t : TermSpec) :
    ∃ pre, renderTerm t = pre ++ t.name := by
  obtain ⟨sgn, coeff, name⟩ := t
  cases coeff with
  | none => exact ⟨(if sgn then ['-'] else []), rfl⟩
  | some cl =>
    refine ⟨(if sgn then ['-'] else []) ++ (numLitChars cl ++ ['*']), ?_⟩
    simp [renderTerm, List.append_assoc]

/-- A rendered term ends with the name, hence not with whitespace. -/
theorem renderTerm_rev_headFalse {t : TermSpec} (h : validTermB t = true) :
    headFalse isSpace (renderTerm t).reverse := by
  obtain ⟨hn1, hn2⟩ := validTermB_name h
  obtain ⟨pre, hpre⟩ := renderTerm_eq_append_name t
  rw [hpre, List.reverse_append]
  cases hrev : t.name.reverse with
  | nil => exact absurd (by simpa using congrArg List.reverse hrev) hn1
  | cons c tr =>
    have hc : c ∈ t.name := by
      have hm : c ∈ t.name.reverse := by rw [hrev]; simp
      simpa using hm
    exact word_not_space (all_mem hn2 hc)

/-- The term-expression pipeline (split on plus, trim, parse each term) on a
whitespace-padded rendered sum of well-formed terms. -/
theorem parseTermPieces_render {ts : List TermSpec} (hne : ts ≠ [])
    (hv : ∀ t ∈ ts, validTermB t = true) :
    ∀ pad : List Char, pad.all isSpace = true →
      parseTermPieces (splitChar '+' (pad ++ renderExpr ts)) =
        .ok (ts.map fun t => ⟨t.name, termValue t⟩) := by
  induction ts with
  | nil => exact absurd rfl hne
  | cons t rest ih =>
    intro pad hpad
    have hvt : validTermB t = true := hv t (by simp)
    cases rest with
    | nil =>
      have hsplit : splitChar '+' (pad ++ renderTerm t) = [pad ++ renderTerm t] := by
        apply splitChar_no_sep
        intro c hc
        rcases List.mem_append.mp hc with hc | hc
        · exact ne_of_class isSpace (all_mem hpad hc) (by decide)
        · exact renderTerm_no_plus hvt c hc
      simp only [renderExpr]
      rw [hsplit, parseTermPieces, trim_prepend_spaces _ hpad,
        trim_eq_self (renderTerm_headFalse hvt) (renderTerm_rev_headFalse hvt),
        parse_variable_render hvt]
      rfl
    | cons t2 rest2 =>
      have hassoc : pad ++ renderExpr (t :: t2 :: rest2) =
          (pad ++ (renderTerm t ++ [' '])) ++ '+' :: (' ' :: renderExpr (t2 :: rest2)) := by
        simp only [renderExpr]
        simp [List.append_assoc]
      have hnosep : ∀ c ∈ pad ++ (renderTerm t ++ [' ']), c ≠ '+' := by
        intro c hc
        rcases List.mem_append.mp hc with hc | hc
        · exact ne_of_class isSpace (all_mem hpad hc) (by decide)
        · rcases List.mem_append.mp hc with hc | hc
          · exact renderTerm_no_plus hvt c hc
          · have := List.mem_singleton.mp hc
            subst this
            decide
      rw [hassoc, splitChar_append_sep _ hnosep, parseTermPieces,
        trim_prepend_spaces _ hpad, trim_append_space,
        trim_eq_self (renderTerm_headFalse hvt) (renderTerm_rev_headFalse hvt),
        parse_variable_render hvt]
      have hih := ih (by simp) (fun x hx => hv x (by simp [hx])) [' '] (by decide)
      rw [show (' ' :: renderExpr (t2 :: rest2)) = [' '] ++ renderExpr (t2 :: rest2) from rfl,
        hih]
      rfl

/-! ## Claims C2 and C3 -/

/-- Claim C2, corrected.  The claim as frozen says the stored coefficient is
always the written magnitude times the written sign; the code violates that
for a sign marker on a bare name (see `claim_C2_counterexample`), because the
`sign` capture of `variable_regex` lives inside the optional coefficient
group.  Amended statement, proved here: for every nonempty written sum of
well-formed terms, parsed left to right in written order, each stored
coefficient is the written magnitude times the sign, where a missing
coefficient gives magnitude `1.0` and the sign factor applies exactly when an
explicit coefficient accompanies it (`termValue`); in particular
`3.5*a + 1.5*b + -0.5*c` parses to `[(a, 3.5), (b, 1.5), (c, -0.5)]` and
`a + b` parses to `[(a, 1.0), (b, 1.0)]`. -/
theorem claim_C2 :
    (∀ ts : List TermSpec, ts ≠ [] → (∀ t ∈ ts, validTermB t = true) →
      parse_objective_vars (renderExpr ts) =
        .ok (ts.map fun t => ⟨t.name, termValue t⟩))
    ∧ parse_objective_vars "3.5*a + 1.5*b + -0.5*c".toList =
        .ok [⟨['a'], ⟨35, 1⟩⟩, ⟨['b'], ⟨15, 1⟩⟩, ⟨['c'], ⟨-5, 1⟩⟩]
    ∧ Dec.toRat ⟨35, 1⟩ = 3.5 ∧ Dec.toRat ⟨15, 1⟩ = 1.5 ∧ Dec.toRat ⟨-5, 1⟩ = -0.5
    ∧ parse_objective_vars "a + b".toList = .ok [⟨['a'], ⟨1, 0⟩⟩, ⟨['b'], ⟨1, 0⟩⟩]
    ∧ Dec.toRat ⟨1, 0⟩ = 1 := by
  refine ⟨fun ts hne hv => ?_, by decide, by norm_num [Dec.toRat], by norm_num [Dec.toRat],
    by norm_num [Dec.toRat], by decide, by norm_num [Dec.toRat]⟩
  have hp := parseTermPieces_render hne hv [] rfl
  rw [List.nil_append] at hp
  exact hp

/-- Claim C2 witness: the amended universal statement applied to the written
sum `2*x + -0.5*y`. -/
theorem claim_C2_witness :
    parse_objective_vars
        (renderExpr [⟨false, some (['2'], none), ['x']⟩, ⟨true, some (['0'], some ['5']), ['y']⟩]) =
      .ok ([⟨false, some (['2'], none), ['x']⟩,
        (⟨true, some (['0'], some ['5']), ['y']⟩ : TermSpec)].map
          fun t => ⟨t.name, termValue t⟩) :=
  claim_C2.1 _ (List.cons_ne_nil _ _) (by decide)

/-- Claim C2 counterexample: in the term expression `-b` the written sign is
negative and the coefficient is missing, so the claim as frozen predicts the
stored coefficient `-1.0`; the code stores `+1.0`. -/
theorem claim_C2_counterexample :
    parse_objective_vars "-b".toList = .ok [⟨['b'], ⟨1, 0⟩⟩]
    ∧ ¬ parse_objective_vars "-b".toList = .ok [⟨['b'], ⟨-1, 0⟩⟩]
    ∧ Dec.toRat ⟨1, 0⟩ = 1 ∧ Dec.toRat ⟨-1, 0⟩ = -1 := by
  refine ⟨by decide, by decide, by norm_num [Dec.toRat], by norm_num [Dec.toRat]⟩

/-- Claim C3, corrected.  The claim as frozen says `-a` parses to
`(a, -1.0)`; the code yields `(a, +1.0)` (see `claim_C3_counterexample`).
Amended statement, proved here: a leading sign marker followed directly by a
bare all-word name parses to that name with coefficient `+1.0` — the sign is
ignored because `variable_regex` only recognises a sign together with an
explicit coefficient and a star, so the match starts after the sign. -/
theorem claim_C3 (nm : List Char) (h1 : nm ≠ []) (h2 : nm.all isWordChar = true) :
    parse_variable ('-' :: nm) = .ok ⟨nm, ⟨1, 0⟩⟩ := by
  have hv : var_captures ('-' :: nm) = some ⟨false, none, nm⟩ := by
    rw [var_captures, scanLeft_cons_of_none (matchVarAt_dash_word h2)]
    exact scanLeft_of_match (matchVarAt_word h1 h2)
  simp only [parse_variable, var_captures] at hv ⊢
  rw [hv]
  rfl

/-- Claim C3 witness: the amended statement at the input `-a`. -/
theorem claim_C3_witness : parse_variable ('-' :: "a".toList) = .ok ⟨"a".toList, ⟨1, 0⟩⟩ :=
  claim_C3 "a".toList (by decide) (by decide)

/-- Claim C3 counterexample: `-a` parses to `(a, +1.0)`, not `(a, -1.0)`. -/
theorem claim_C3_counterexample :
    parse_variable "-a".toList = .ok ⟨['a'], ⟨1, 0⟩⟩
    ∧ ¬ parse_variable "-a".toList = .ok ⟨['a'], ⟨-1, 0⟩⟩
    ∧ Dec.toRat ⟨1, 0⟩ = 1 ∧ Dec.toRat ⟨-1, 0⟩ = -1 := by
  refine ⟨by decide, by decide, by norm_num [Dec.toRat], by norm_num [Dec.toRat]⟩

/-! ## The aggregation loop of `get_components` (for C1, C5, C7) -/

/-- The variable carried by a component, if any. -/
def getVar : Component → Option Variable
  | .Variable v => some v
  | _ => none

/-- The constraint carried by a component, if any. -/
def getCon : Component → Option Constraint
  | .Constraint c => some c
  | _ => none

/-- The objective carried by a component, if any. -/
def getObj : Component → Option Objective
  | .Objective o => some o
  | _ => none

/-- The objective accumulator of the bucketing loop in isolation. -/
def lastObjFold (obj : Option Objective) (l : List Component) : Option Objective :=
  l.foldl (fun acc c => match c with | .Objective o => some o | _ => acc) obj

/-- The bucketing loop appends variables and constraints in order and keeps
the last objective. -/
theorem aggStep_fold (l : List Component) :
    ∀ (vars : List Variable) (cons : List Constraint) (obj : Option Objective),
      l.foldl aggStep (vars, cons, obj) =
        (vars ++ l.filterMap getVar, cons ++ l.filterMap getCon, lastObjFold obj l) := by
  induction l with
  | nil => intro vars cons obj; simp [lastObjFold]
  | cons c t ih =>
    intro vars cons obj
    cases c with
    | Variable v =>
      rw [List.foldl_cons, ih]
      simp [aggStep, getVar, getCon, lastObjFold, List.filterMap_cons]
    | Constraint k =>
      rw [List.foldl_cons, ih]
      simp [aggStep, getVar, getCon, lastObjFold, List.filterMap_cons]
    | Objective o =>
      rw [List.foldl_cons, ih]
      simp [aggStep, getVar, getCon, lastObjFold, List.filterMap_cons, getObj]
    | Comment =>
      rw [List.foldl_cons, ih]
      simp [aggStep, getVar, getCon, lastObjFold, List.filterMap_cons]

theorem getLast?_cons_eq {α : Type} (a : α) (l : List α) :
    (a :: l).getLast? = match l.getLast? with
      | some b => some b
      | none => some a := by
  induction l generalizing a with
  | nil => rfl
  | cons b t ih =>
    rw [List.getLast?_cons_cons]
    cases hbt : (b :: t).getLast? with
    | none =>
      exfalso
      rw [ih b] at hbt
      cases hg : t.getLast? with
      | none => rw [hg] at hbt; simp at hbt
      | some x => rw [hg] at hbt; simp at hbt
    | some x => rfl

/-- The objective accumulator keeps the last objective of the list. -/
theorem lastObjFold_eq (l : List Component) : ∀ obj : Option Objective,
    lastObjFold obj l =
      match (l.filterMap getObj).getLast? with
      | some o => some o
      | none => obj := by
  induction l with
  | nil => intro obj; rfl
  | cons c t ih =>
    intro obj
    cases c with
    | Objective o =>
      have hstep : lastObjFold obj (Component.Objective o :: t) = lastObjFold (some o) t := rfl
      rw [hstep, ih (some o)]
      have hfm : (Component.Objective o :: t).filterMap getObj = o :: t.filterMap getObj := by
        simp [List.filterMap_cons, getObj]
      rw [hfm, getLast?_cons_eq]
      cases (t.filterMap getObj).getLast? <;> rfl
    | Variable v =>
      have hstep : lastObjFold obj (Component.Variable v :: t) = lastObjFold obj t := rfl
      rw [hstep, ih obj]
      have hfm : (Component.Variable v :: t).filterMap getObj = t.filterMap getObj := by
        simp [List.filterMap_cons, getObj]
      rw [hfm]
    | Constraint k =>
      have hstep : lastObjFold obj (Component.Constraint k :: t) = lastObjFold obj t := rfl
      rw [hstep, ih obj]
      have hfm : (Component.Constraint k :: t).filterMap getObj = t.filterMap getObj := by
        simp [List.filterMap_cons, getObj]
      rw [hfm]
    | Comment =>
      have hstep : lastObjFold obj (Component.Comment :: t) = lastObjFold obj t := rfl
      rw [hstep, ih obj]
      have hfm : (Component.Comment :: t).filterMap getObj = t.filterMap getObj := by
        simp [List.filterMap_cons, getObj]
      rw [hfm]

/-- Dropping comments does not change the extracted variables, constraints or
objectives. -/
theorem filterMap_filter_notComment {α : Type} (g : Component → Option α)
    (hg : g Component.Comment = none) (l : List Component) :
    (l.filter Component.isNotComment).filterMap g = l.filterMap g := by
  induction l with
  | nil => rfl
  | cons c t ih =>
    cases c <;>
      simp [List.filter_cons, Component.isNotComment, List.filterMap_cons, hg, ih]

/-- What `get_components` returns once every statement has been classified
and parsed: the variables and constraints in order, and the last objective,
or `MissingObjective` if there is none. -/
theorem get_components_eq {text : List Char} {comps : List Component}
    (hmap : componentsOfLines (segment text) = .ok comps) :
    get_components text =
      match (comps.filterMap getObj).getLast? with
      | some obj => .ok ⟨comps.filterMap getVar, comps.filterMap getCon, obj⟩
      | none => .error .MissingObjective := by
  simp only [get_components, hmap]
  rw [aggStep_fold, lastObjFold_eq, List.nil_append, List.nil_append,
    filterMap_filter_notComment getVar rfl, filterMap_filter_notComment getCon rfl,
    filterMap_filter_notComment getObj rfl]
  cases (comps.filterMap getObj).getLast? <;> rfl

/-- `componentsOfLines` yields one component per statement. -/
theorem componentsOfLines_length {lines : List (List Char)} {comps : List Component}
    (h : componentsOfLines lines = .ok comps) : comps.length = lines.length := by
  induction lines generalizing comps with
  | nil =>
    cases h
    rfl
  | cons s t ih =>
    rw [componentsOfLines] at h
    cases hs : component_from_line s with
    | error e =>
      rw [hs] at h
      exact absurd h (fun hh => Except.noConfusion hh)
    | ok c =>
      rw [hs] at h
      cases ht : componentsOfLines t with
      | error e =>
        rw [ht] at h
        exact absurd h (fun hh => Except.noConfusion hh)
      | ok cs =>
        rw [ht] at h
        cases h
        simp [ih ht]

/-- A failing statement anywhere in the list makes the whole pass fail. -/
theorem componentsOfLines_error_of_mem {lines : List (List Char)} {l : List Char}
    (hl : l ∈ lines) {e : ParseError} (he : component_from_line l = .error e) :
    ∃ e2, componentsOfLines lines = .error e2 := by
  induction lines with
  | nil => exact absurd hl (List.not_mem_nil l)
  | cons s t ih =>
    cases hs : component_from_line s with
    | error e2 => exact ⟨e2, by simp only [componentsOfLines, hs]⟩
    | ok c =>
      rcases List.mem_cons.mp hl with rfl | hl2
      · rw [hs] at he
        exact absurd he (fun hh => Except.noConfusion hh)
      · obtain ⟨e2, h2⟩ := ih hl2
        exact ⟨e2, by simp only [componentsOfLines, hs, h2]⟩

/-- The first failing statement after a well-parsed prefix decides the error
of the whole pass. -/
theorem componentsOfLines_append_error {pre : List (List Char)} {comps : List Component}
    (hpre : componentsOfLines pre = .ok comps) {l : List Char} {e : ParseError}
    (hl : component_from_line l = .error e) (post : List (List Char)) :
    componentsOfLines (pre ++ l :: post) = .error e := by
  induction pre generalizing comps with
  | nil => simp only [List.nil_append, componentsOfLines, hl]
  | cons s t ih =>
    rw [componentsOfLines] at hpre
    cases hs : component_from_line s with
    | error e2 =>
      rw [hs] at hpre
      exact absurd hpre (fun hh => Except.noConfusion hh)
    | ok c =>
      rw [hs] at hpre
      cases ht : componentsOfLines t with
      | error e2 =>
        rw [ht] at hpre
        exact absurd hpre (fun hh => Except.noConfusion hh)
      | ok cs =>
        simp only [List.cons_append, componentsOfLines, hs, List.append_eq, ih ht]

/-- An error from the classify-and-parse pass is the error of the parse. -/
theorem get_components_error {text : List Char} {e : ParseError}
    (h : componentsOfLines (segment text) = .error e) :
    get_components text = .error e := by
  simp only [get_components, h]

/-! ## Claims C1, C5, C6, C7 -/

/-- Claim C1: if every statement of the document classifies and parses
(`componentsOfLines` succeeds; it yields exactly one component per
statement), and exactly one of the parsed components is an objective, then
`get_components` succeeds, its `objective` is that sole objective record,
and its `constraints` are the parsed constraint records in document order —
in particular their number equals the number N of constraint statements,
which is the number of `Constraint` components. -/
theorem claim_C1 (text : List Char) (comps : List Component) (obj : Objective)
    (hmap : componentsOfLines (segment text) = .ok comps)
    (hobj : comps.filterMap getObj = [obj]) :
    ∃ c : Components, get_components text = .ok c ∧ c.objective = obj ∧
      c.constraints = comps.filterMap getCon ∧
      c.constraints.length = (comps.filterMap getCon).length ∧
      comps.length = (segment text).length := by
  have h := get_components_eq hmap
  rw [hobj] at h
  exact ⟨⟨comps.filterMap getVar, comps.filterMap getCon, obj⟩, h, rfl, rfl, rfl,
    componentsOfLines_length hmap⟩

/-- Claim C1 witness: a document with one declaration, one objective and one
constraint statement. -/
theorem claim_C1_witness :
    ∃ c : Components,
      get_components "var a; maximize obj: 2*a; subject to c1: a <= 10;".toList = .ok c
      ∧ c.objective = ⟨"obj".toList, [⟨['a'], ⟨2, 0⟩⟩], true⟩
      ∧ c.constraints =
          [Component.Variable ⟨['a'], ⟨0, 0⟩⟩,
            Component.Objective ⟨"obj".toList, [⟨['a'], ⟨2, 0⟩⟩], true⟩,
            Component.Constraint ⟨"c1".toList, [⟨['a'], ⟨1, 0⟩⟩], ⟨10, 0⟩,
              .LessThanOrEqual⟩].filterMap getCon
      ∧ c.constraints.length =
          ([Component.Variable ⟨['a'], ⟨0, 0⟩⟩,
            Component.Objective ⟨"obj".toList, [⟨['a'], ⟨2, 0⟩⟩], true⟩,
            Component.Constraint ⟨"c1".toList, [⟨['a'], ⟨1, 0⟩⟩], ⟨10, 0⟩,
              .LessThanOrEqual⟩].filterMap getCon).length
      ∧ ([Component.Variable ⟨['a'], ⟨0, 0⟩⟩,
          Component.Objective ⟨"obj".toList, [⟨['a'], ⟨2, 0⟩⟩], true⟩,
          Component.Constraint ⟨"c1".toList, [⟨['a'], ⟨1, 0⟩⟩], ⟨10, 0⟩,
            .LessThanOrEqual⟩] : List Component).length =
          (segment "var a; maximize obj: 2*a; subject to c1: a <= 10;".toList).length :=
  claim_C1 "var a; maximize obj: 2*a; subject to c1: a <= 10;".toList
    [Component.Variable ⟨['a'], ⟨0, 0⟩⟩,
      Component.Objective ⟨"obj".toList, [⟨['a'], ⟨2, 0⟩⟩], true⟩,
      Component.Constraint ⟨"c1".toList, [⟨['a'], ⟨1, 0⟩⟩], ⟨10, 0⟩, .LessThanOrEqual⟩]
    ⟨"obj".toList, [⟨['a'], ⟨2, 0⟩⟩], true⟩ (by decide) (by decide)

/-- Claim C5, corrected.  As frozen the claim covers every document with zero
objective statements; a document whose statements do not even classify fails
earlier with a different error (see `claim_C5_counterexample`).  Amended
statement, proved here: every document whose statements all classify and
parse and that yields no objective component fails with `MissingObjective`
(and no `Components` value is returned, being an `error`). -/
theorem claim_C5 (text : List Char) (comps : List Component)
    (hmap : componentsOfLines (segment text) = .ok comps)
    (hnone : comps.filterMap getObj = []) :
    get_components text = .error .MissingObjective := by
  have h := get_components_eq hmap
  rw [hnone] at h
  exact h

/-- Claim C5 witness: a declaration-only document. -/
theorem claim_C5_witness : get_components "var a;".toList = .error .MissingObjective :=
  claim_C5 "var a;".toList [Component.Variable ⟨['a'], ⟨0, 0⟩⟩] (by decide) (by decide)

/-- Claim C5 counterexample: the document `xyzzy;` contains zero objective
statements (no statement classifies as an objective), yet parsing fails with
`MalformedStatement`, not `MissingObjective`. -/
theorem claim_C5_counterexample :
    ((segment "xyzzy;".toList).all
        (fun l => decide (¬ get_line_type l = .ok .Objective))) = true
    ∧ get_components "xyzzy;".toList = .error .MalformedStatement
    ∧ ¬ ParseError.MalformedStatement = ParseError.MissingObjective :=
  ⟨by decide, by decide, by decide⟩

/-- No recognised keyword marker occurs in the statement: no comment marker,
no declaration keyword, neither objective-direction keyword, no constraint
keyword. -/
abbrev noKeyword (l : List Char) : Prop :=
  listContains l ['#'] = false ∧ listContains l "var".toList = false ∧
    listContains l "minimize".toList = false ∧ listContains l "maximize".toList = false ∧
    listContains l "subject to".toList = false

/-- Claim C6: a statement containing none of the four keyword markers makes
`get_line_type` fail with `MalformedStatement` (first conjunct); a document
containing such a statement among its segmented statements never parses — it
is never silently skipped (second conjunct); and when the statements before
it all parse, the document error is exactly `MalformedStatement` (third
conjunct).  Nonemptiness of the statement is not even needed for the
classifier; segmented statements are nonempty and trimmed by construction. -/
theorem claim_C6 :
    (∀ l : List Char, noKeyword l → get_line_type l = .error .MalformedStatement)
    ∧ (∀ (text : List Char) (l : List Char), l ∈ segment text → noKeyword l →
        ∃ e, get_components text = .error e)
    ∧ (∀ (text : List Char) (pre post : List (List Char)) (l : List Char)
        (comps : List Component),
        segment text = pre ++ l :: post →
        componentsOfLines pre = .ok comps →
        noKeyword l →
        get_components text = .error .MalformedStatement) := by
  have hlt : ∀ l : List Char, noKeyword l → get_line_type l = .error .MalformedStatement := by
    intro l h
    obtain ⟨h1, h2, h3, h4, h5⟩ := h
    rw [get_line_type, h1, h2, h3, h4, h5]
    simp
  have hcf : ∀ l : List Char, noKeyword l →
      component_from_line l = .error .MalformedStatement := by
    intro l h
    simp only [component_from_line, hlt l h]
  refine ⟨hlt, ?_, ?_⟩
  · intro text l hl h
    obtain ⟨e2, he2⟩ := componentsOfLines_error_of_mem hl (hcf l h)
    exact ⟨e2, get_components_error he2⟩
  · intro text pre post l comps hseg hpre h
    have herr := componentsOfLines_append_error hpre (hcf l h) post
    rw [← hseg] at herr
    exact get_components_error herr

/-- Claim C6 witness: the keyword-free statement `xyzzy`, alone and after a
well-formed declaration statement. -/
theorem claim_C6_witness :
    get_line_type "xyzzy".toList = .error .MalformedStatement
    ∧ (∃ e, get_components "var a; xyzzy;".toList = .error e)
    ∧ get_components "var a; xyzzy;".toList = .error .MalformedStatement :=
  ⟨claim_C6.1 "xyzzy".toList (by decide),
    claim_C6.2.1 "var a; xyzzy;".toList "xyzzy".toList (by decide) (by decide),
    claim_C6.2.2 "var a; xyzzy;".toList ["var a".toList] [] "xyzzy".toList
      [Component.Variable ⟨['a'], ⟨0, 0⟩⟩] (by decide) (by decide) (by decide)⟩

/-- Claim C7: if every statement classifies and parses and at least two of
the parsed components are objectives, `get_components` succeeds and its
`objective` is the last objective in document order — the earlier ones are
silently overwritten. -/
theorem claim_C7 (text : List Char) (comps : List Component) (objs : List Objective)
    (hmap : componentsOfLines (segment text) = .ok comps)
    (hobjs : comps.filterMap getObj = objs) (hlen : 2 ≤ objs.length) :
    ∃ c : Components, get_components text = .ok c ∧ objs.getLast? = some c.objective := by
  have h := get_components_eq hmap
  rw [hobjs] at h
  cases hlast : objs.getLast? with
  | none =>
    exfalso
    cases objs with
    | nil => simp at hlen
    | cons o t =>
      rw [getLast?_cons_eq] at hlast
      cases hg : t.getLast? with
      | none => rw [hg] at hlast; simp at hlast
      | some x => rw [hg] at hlast; simp at hlast
  | some obj =>
    rw [hlast] at h
    exact ⟨⟨comps.filterMap getVar, comps.filterMap getCon, obj⟩, h, rfl⟩

/-- Claim C7 witness: two objective statements; the second one wins. -/
theorem claim_C7_witness :
    ∃ c : Components,
      get_components "maximize o1: a; maximize o2: 2*a;".toList = .ok c
      ∧ ([⟨"o1".toList, [⟨['a'], ⟨1, 0⟩⟩], true⟩,
          (⟨"o2".toList, [⟨['a'], ⟨2, 0⟩⟩], true⟩ : Objective)] : List Objective).getLast?
          = some c.objective :=
  claim_C7 "maximize o1: a; maximize o2: 2*a;".toList
    [Component.Objective ⟨"o1".toList, [⟨['a'], ⟨1, 0⟩⟩], true⟩,
      Component.Objective ⟨"o2".toList, [⟨['a'], ⟨2, 0⟩⟩], true⟩]
    [⟨"o1".toList, [⟨['a'], ⟨1, 0⟩⟩], true⟩, ⟨"o2".toList, [⟨['a'], ⟨2, 0⟩⟩], true⟩]
    (by decide) (by decide) (by decide)

/-! ## Shape of the constraint captures (for C4 and C10) -/

/-- Whatever the operator alternation captures is one of the three accepted
tokens. -/
theorem typeSplit_shape {l ty r : List Char} (h : typeSplit l = some (ty, r)) :
    ty = ['<', '='] ∨ ty = ['>', '='] ∨ ty = ['=', '='] := by
  unfold typeSplit at h
  split at h
  · cases h
    exact Or.inr (Or.inr rfl)
  · cases h
    exact Or.inl rfl
  · cases h
    exact Or.inr (Or.inl rfl)
  · exact absurd h (fun hh => Option.noConfusion hh)

/-- Whatever the constant piece captures starts with a digit (in particular
it carries no sign). -/
theorem constSplit_shape {l c : List Char} (h : constSplit l = some c) :
    ∃ d ds, c = d :: ds ∧ isDigitChar d = true := by
  cases hpg : plusGreedy isDigitChar l with
  | none =>
    simp only [constSplit, hpg] at h
    exact Option.noConfusion h
  | some pr =>
    obtain ⟨d1, r1⟩ := pr
    simp only [constSplit, hpg] at h
    obtain ⟨htk, -, hne⟩ := plusGreedy_shape hpg
    obtain ⟨d, ds, rfl⟩ : ∃ d ds, d1 = d :: ds := by
      cases d1 with
      | nil => exact absurd rfl hne
      | cons d ds => exact ⟨d, ds, rfl⟩
    have hd : isDigitChar d = true := takeWhile_head_true htk.symm
    split at h
    · cases h
      exact ⟨d, _, rfl, hd⟩
    · cases h
      exact ⟨d, ds, rfl, hd⟩

/-- The operator and constant captured by the constraint tail. -/
theorem matchConstraintTail_shape {t terms ty c : List Char}
    (h : matchConstraintTail t = some (terms, ty, c)) :
    (ty = ['<', '='] ∨ ty = ['>', '='] ∨ ty = ['=', '=']) ∧
      ∃ d ds, c = d :: ds ∧ isDigitChar d = true := by
  obtain ⟨t1, h⟩ := firstSome_some h
  obtain ⟨pr, h⟩ := firstSome_some h
  obtain ⟨t3, h⟩ := firstSome_some h
  cases hts : typeSplit t3 with
  | none =>
    simp only [hts] at h
    exact Option.noConfusion h
  | some tySp =>
    obtain ⟨tyv, t4⟩ := tySp
    simp only [hts] at h
    obtain ⟨t5, h⟩ := firstSome_some h
    cases hcs : constSplit t5 with
    | none =>
      simp only [hcs] at h
      exact Option.noConfusion h
    | some c2 =>
      simp only [hcs] at h
      cases h
      exact ⟨typeSplit_shape hts, constSplit_shape hcs⟩

/-- The operator and constant captured by `constraint_regex`. -/
theorem constraint_captures_shape {l : List Char} {caps : ConstraintCaps}
    (h : constraint_captures l = some caps) :
    (caps.ty = ['<', '='] ∨ caps.ty = ['>', '='] ∨ caps.ty = ['=', '=']) ∧
      ∃ d ds, caps.constant = d :: ds ∧ isDigitChar d = true := by
  obtain ⟨s, h⟩ := scanLeft_some h
  simp only [matchConstraintAt] at h
  cases h1 : stripLit "subject to ".toList s with
  | none =>
    simp only [h1] at h
    exact Option.noConfusion h
  | some r1 =>
    simp only [h1] at h
    cases h2 : stripLit [':'] (r1.dropWhile isWordChar) with
    | none =>
      simp only [h2] at h
      exact Option.noConfusion h
    | some r2 =>
      simp only [h2] at h
      cases h3 : matchConstraintTail r2 with
      | none =>
        simp only [h3] at h
        exact Option.noConfusion h
      | some tr =>
        obtain ⟨terms, ty, c⟩ := tr
        simp only [h3] at h
        cases h
        exact matchConstraintTail_shape h3

/-- The stored relation is the substring-based resolution of the captured
operator token, exactly as `parse_constraint` computes it. -/
theorem parse_constraint_relation {l : List Char} {caps : ConstraintCaps} {c : Constraint}
    (hcaps : constraint_captures l = some caps) (hok : parse_constraint l = .ok c) :
    c.relation =
      (if listContains caps.ty ['<'] then Relation.LessThanOrEqual
       else if listContains caps.ty ['>'] then Relation.GreaterThanOrEqual
       else Relation.Equal) := by
  simp only [parse_constraint, hcaps] at hok
  cases hpv : parse_objective_vars caps.terms with
  | error e =>
    rw [hpv] at hok
    exact absurd hok (fun hh => Except.noConfusion hh)
  | ok vars =>
    simp only [hpv] at hok
    cases hok
    rfl

/-! ## Claims C4, C8, C9, C10 -/

/-- Claim C4: in every successfully parsed constraint the captured
relational-operator token is one of `<=`, `>=`, `==` (the only tokens the
pattern accepts), and the stored relation is resolved from that token by
substring: a token containing `<` gives `LessThanOrEqual`, a token containing
`>` gives `GreaterThanOrEqual`, any other accepted token gives `Equal`; in
particular the three tokens resolve to the three relations. -/
theorem claim_C4 :
    (∀ (l : List Char) (caps : ConstraintCaps), constraint_captures l = some caps →
      caps.ty = "<=".toList ∨ caps.ty = ">=".toList ∨ caps.ty = "==".toList)
    ∧ (∀ (l : List Char) (caps : ConstraintCaps) (c : Constraint),
        constraint_captures l = some caps → parse_constraint l = .ok c →
        c.relation =
          (if listContains caps.ty ['<'] then Relation.LessThanOrEqual
           else if listContains caps.ty ['>'] then Relation.GreaterThanOrEqual
           else Relation.Equal))
    ∧ (parse_constraint "subject to c1: a <= 10".toList).map Constraint.relation =
        .ok .LessThanOrEqual
    ∧ (parse_constraint "subject to c2: a >= 10".toList).map Constraint.relation =
        .ok .GreaterThanOrEqual
    ∧ (parse_constraint "subject to c3: a == 10".toList).map Constraint.relation =
        .ok .Equal
    ∧ listContains "<=".toList ['<'] = true ∧ listContains ">=".toList ['>'] = true
    ∧ listContains ">=".toList ['<'] = false ∧ listContains "==".toList ['<'] = false
    ∧ listContains "==".toList ['>'] = false := by
  refine ⟨fun l caps h => (constraint_captures_shape h).1,
    fun l caps c h1 h2 => parse_constraint_relation h1 h2,
    by decide, by decide, by decide, by decide, by decide, by decide, by decide, by decide⟩

/-- Claim C4 witness: both universal parts applied to the parsed constraint
`subject to c1: a <= 10`, whose captured token is `<=`. -/
theorem claim_C4_witness :
    ((⟨"c1".toList, ['a'], "<=".toList, "10".toList⟩ : ConstraintCaps).ty = "<=".toList
      ∨ (⟨"c1".toList, ['a'], "<=".toList, "10".toList⟩ : ConstraintCaps).ty = ">=".toList
      ∨ (⟨"c1".toList, ['a'], "<=".toList, "10".toList⟩ : ConstraintCaps).ty = "==".toList)
    ∧ (⟨"c1".toList, [⟨['a'], ⟨1, 0⟩⟩], ⟨10, 0⟩,
        Relation.LessThanOrEqual⟩ : Constraint).relation =
      (if listContains (⟨"c1".toList, ['a'], "<=".toList,
          "10".toList⟩ : ConstraintCaps).ty ['<'] then Relation.LessThanOrEqual
       else if listContains (⟨"c1".toList, ['a'], "<=".toList,
          "10".toList⟩ : ConstraintCaps).ty ['>'] then Relation.GreaterThanOrEqual
       else Relation.Equal) :=
  ⟨claim_C4.1 "subject to c1: a <= 10".toList _ (by decide),
    claim_C4.2.1 "subject to c1: a <= 10".toList _ _ (by decide) (by decide)⟩

/-- Claim C8, corrected.  The claim as frozen says a constraint statement
whose name contains `var` is still correctly classified as a Constraint; in
the code the declaration check has priority, so such a statement is
classified as a Declaration (see `claim_C8_counterexample`).  Amended
statement, proved here: any statement containing `var` and no comment marker
is classified `Variable`; for the constraint statement
`subject to varcost: a <= 5` the declaration pattern then finds no match and
the whole parse aborts with `UnmatchedPattern`. -/
theorem claim_C8 :
    (∀ l : List Char, listContains l ['#'] = false → listContains l "var".toList = true →
      get_line_type l = .ok .Variable)
    ∧ get_line_type "subject to varcost: a <= 5".toList = .ok .Variable
    ∧ component_from_line "subject to varcost: a <= 5".toList = .error .UnmatchedPattern
    ∧ get_components "subject to varcost: a <= 5;".toList = .error .UnmatchedPattern := by
  refine ⟨fun l h1 h2 => ?_, by decide, by decide, by decide⟩
  rw [get_line_type, h1, h2]
  simp

/-- Claim C8 witness: the generic classification part applied to the
constraint statement whose name contains `var`. -/
theorem claim_C8_witness :
    get_line_type "subject to varcost: a <= 5".toList = .ok .Variable :=
  claim_C8.1 "subject to varcost: a <= 5".toList (by decide) (by decide)

/-- Claim C8 counterexample: the well-formed constraint statement
`subject to varcost: a <= 5` (comment-marker free) is not classified as a
Constraint, and instead of producing a Constraint record its parse fails. -/
theorem claim_C8_counterexample :
    ¬ get_line_type "subject to varcost: a <= 5".toList = .ok .Constraint
    ∧ component_from_line "subject to varcost: a <= 5".toList =
        .error .UnmatchedPattern :=
  ⟨by decide, by decide⟩

/-- Claim C9: a declaration statement `var <identifier>` (any nonempty
whitespace after the keyword, any nonempty identifier) parses to the
identifier with the sentinel coefficient `0.0`; in particular the statement
`var a` of the document `var a;` yields the Variable component
`(a, 0.0)`. -/
theorem claim_C9 :
    (∀ ws nm : List Char, ws ≠ [] → ws.all isSpace = true → nm ≠ [] →
      nm.all isWordChar = true →
      parse_variable_declaration ("var".toList ++ ws ++ nm) = .ok ⟨nm, ⟨0, 0⟩⟩)
    ∧ component_from_line "var a".toList = .ok (.Variable ⟨['a'], ⟨0, 0⟩⟩)
    ∧ Dec.toRat ⟨0, 0⟩ = 0 := by
  refine ⟨fun ws nm hws1 hws2 hnm1 hnm2 => ?_, by decide, by norm_num [Dec.toRat]⟩
  have hsv : "var".toList = ['v', 'a', 'r'] := rfl
  have hm : matchVarDeclAt ("var".toList ++ ws ++ nm) = some nm := by
    rw [hsv, List.append_assoc]
    simp only [matchVarDeclAt, stripLit_append,
      plusGreedy_append hws1 hws2 (headFalse_of_word hnm2), plusGreedy_all hnm1 hnm2]
  have hv : var_decl_captures ("var".toList ++ ws ++ nm) = some nm := by
    rw [var_decl_captures]
    exact scanLeft_of_match hm
  simp only [parse_variable_declaration, hv]

/-- Claim C9 witness: the declaration `var a`. -/
theorem claim_C9_witness :
    parse_variable_declaration ("var".toList ++ [' '] ++ "a".toList) =
      .ok ⟨"a".toList, ⟨0, 0⟩⟩ :=
  claim_C9.1 [' '] "a".toList (by decide) (by decide) (by decide) (by decide)

/-- Claim C10: the constant capture of `constraint_regex` is an unsigned
decimal literal — whatever it captures starts with a digit — and on a
constraint statement whose right-hand constant carries a leading sign the
regex finds no match at all, so the constant cannot be extracted and the
whole parse aborts with `UnmatchedPattern`. -/
theorem claim_C10 :
    (∀ (l : List Char) (caps : ConstraintCaps), constraint_captures l = some caps →
      ∃ d ds, caps.constant = d :: ds ∧ isDigitChar d = true)
    ∧ constraint_captures "subject to c: a <= -5".toList = none
    ∧ parse_constraint "subject to c: a <= -5".toList = .error .UnmatchedPattern
    ∧ get_components "subject to c: a <= -5;".toList = .error .UnmatchedPattern :=
  ⟨fun l caps h => (constraint_captures_shape h).2, by decide, by decide, by decide⟩

/-- Claim C10 witness: the universal part applied to the parsed constraint
`subject to c1: a <= 10`, whose captured constant is `10`. -/
theorem claim_C10_witness :
    ∃ d ds, (⟨"c1".toList, ['a'], "<=".toList, "10".toList⟩ : ConstraintCaps).constant =
      d :: ds ∧ isDigitChar d = true :=
  claim_C10.1 "subject to c1: a <= 10".toList _ (by decide)

end Rulp
